import Mathlib

/-!
Verification of `netlib/odict.py`: an ordered, duplicate-tolerant (key, value)
container (`ODict`) together with its case-insensitive variant (`ODictCaseless`).

The data model is a list of (key, value) pairs of text.  Every operation that
compares keys does so through a pluggable normalization function `kconv`
(`_kconv` in the source): the identity for the base class, lower-casing for the
caseless variant.  Operations are embedded as pure functions on
`List (String × String)`; the mutable-object aspects that the claims mention
(aliasing of snapshots and copies) are embedded separately with an explicit
heap of addressed cells.
-/

namespace Netlib

/-- `ODict._kconv`: the base class leaves keys untouched. -/
def kconv_id (s : String) : String := s

/-- `ODictCaseless._kconv`: the caseless variant lower-cases keys, as Python's
`str.lower()` does — character by character. -/
def kconv_caseless (s : String) : String := String.mk (s.data.map Char.toLower)

/-- `ODict.__getitem__`: collect, in order, the second component of every entry
whose normalized key equals the normalized query key. -/
def getitem (kconv : String → String) (k : String) : List (String × String) → List String
  | [] => []
  | i :: rest =>
    if kconv i.1 = kconv k then i.2 :: getitem kconv k rest else getitem kconv k rest

/-- `ODict._filter_lst`: keep exactly the entries whose normalized key differs
from the normalized query key. -/
def filter_lst (kconv : String → String) (k : String) : List (String × String) → List (String × String)
  | [] => []
  | i :: rest =>
    if kconv i.1 ≠ kconv k then i :: filter_lst kconv k rest else filter_lst kconv k rest

/-- `ODict.__delitem__`: delete all items matching `k`. -/
def delitem (kconv : String → String) (k : String) (lst : List (String × String)) :
    List (String × String) :=
  filter_lst kconv k lst

/-- `ODict.__contains__`: does some entry's normalized key equal the normalized
query key? -/
def contains (kconv : String → String) (k : String) : List (String × String) → Bool
  | [] => false
  | i :: rest => if kconv i.1 = kconv k then true else contains kconv k rest

/-- `ODict.add`: append a new `(key, value)` entry at the end. -/
def add (lst : List (String × String)) (k v : String) : List (String × String) :=
  lst ++ [(k, v)]

/-- The loop of `ODict.__setitem__`: walk the entries; a matching entry is
rewritten to `(k, head of valuelist)` when values remain (consuming that head,
as `valuelist.pop(0)` does) and dropped otherwise; non-matching entries pass
through.  Returns the rebuilt prefix together with the unconsumed values. -/
def setitem_loop (kconv : String → String) (kc k : String) :
    List (String × String) → List String → List (String × String) × List String
  | [], vs => ([], vs)
  | i :: rest, vs =>
    if kconv i.1 = kc then
      match vs with
      | [] => setitem_loop kconv kc k rest []
      | v :: vs2 =>
        let r := setitem_loop kconv kc k rest vs2
        ((k, v) :: r.1, r.2)
    else
      let r := setitem_loop kconv kc k rest vs
      (i :: r.1, r.2)

/-- `ODict.__setitem__` (after the scalar-string check): the walk above followed
by the trailing `while valuelist: new.append([k, valuelist.pop(0)])` loop. -/
def setitem (kconv : String → String) (k : String) (vs : List String)
    (lst : List (String × String)) : List (String × String) :=
  let r := setitem_loop kconv (kconv k) k lst vs
  r.1 ++ r.2.map (fun v => (k, v))

/-- The dynamically-typed `valuelist` argument of `ODict.__setitem__`: either a
scalar text value (rejected by the `isinstance(valuelist, str)` check) or a
sequence of values. -/
inductive ValueArg where
  | scalar : String → ValueArg
  | values : List String → ValueArg

/-- `ODict.__setitem__` including the scalar check: returns the raised error
message (if any) together with the resulting entry list.  The `ValueError` is
raised before any mutation, so on failure the entries are returned unchanged. -/
def setitem_run (kconv : String → String) (k : String) (arg : ValueArg)
    (lst : List (String × String)) : Option String × List (String × String) :=
  match arg with
  | .scalar _ => (some "Expected list of values instead of string.", lst)
  | .values vs => (none, setitem kconv k vs lst)

/-- Number of entries whose normalized key equals the normalized query key. -/
def numMatches (kconv : String → String) (k : String) : List (String × String) → Nat
  | [] => 0
  | i :: rest =>
    if kconv i.1 = kconv k then numMatches kconv k rest + 1 else numMatches kconv k rest

/-- Modelled from the spec, §4.2 (`set_values`, net effect): walking the
entries, the `c`-th matching occurrence is overwritten in place by
`(key, vs[c])` when `c` is below the number of supplied values and dropped
otherwise; non-matching entries keep their position. -/
def specWalk (kconv : String → String) (k : String) (vs : List String) :
    List (String × String) → Nat → List (String × String)
  | [], _ => []
  | i :: rest, c =>
    if kconv i.1 = kconv k then
      match vs[c]? with
      | some v => (k, v) :: specWalk kconv k vs rest (c + 1)
      | none => specWalk kconv k vs rest (c + 1)
    else i :: specWalk kconv k vs rest c

/-- Modelled from the spec, §4.2 (`set_values`, net effect): the first
`n = min (supplied values) (prior occurrences)` occurrences are overwritten in
place, surplus prior occurrences are deleted, and the surplus values
`vs.drop n` are appended at the tail as fresh `(key, value)` entries. -/
def set_values_spec (kconv : String → String) (k : String) (vs : List String)
    (lst : List (String × String)) : List (String × String) :=
  specWalk kconv k vs lst 0 ++
    (vs.drop (min vs.length (numMatches kconv k lst))).map (fun v => (k, v))

/-- UTF-8 encoding of one character, as Python's `str.encode('utf-8')`
produces it. -/
def utf8Encode (c : Char) : List Nat :=
  let n := c.toNat
  if n < 128 then [n]
  else if n < 2048 then [192 + n / 64, 128 + n % 64]
  else if n < 65536 then [224 + n / 4096, 128 + (n / 64) % 64, 128 + n % 64]
  else [240 + n / 262144, 128 + (n / 4096) % 64, 128 + (n / 64) % 64, 128 + n % 64]

/-- The `str_to_bytes` helper inside `ODict.format`: encode text to UTF-8
bytes. -/
def str_to_bytes (s : String) : List Nat :=
  (s.data.map utf8Encode).flatten

/-- `bytes.join`: concatenate the pieces with `sep` between consecutive
pieces. -/
def joinSep (sep : List Nat) : List (List Nat) → List Nat
  | [] => []
  | [x] => x
  | x :: y :: rest => x ++ sep ++ joinSep sep (y :: rest)

/-- `ODict.format`: render every entry as `key + b": " + value`, append one
empty element, and join with CRLF (`b"\r\n"`). -/
def format (lst : List (String × String)) : List Nat :=
  joinSep [13, 10]
    ((lst.map fun i => str_to_bytes i.1 ++ [58, 32] ++ str_to_bytes i.2) ++ [[]])

/-- Python's `str` applied to a text pattern or replacement (the coercion done
by `safe_subn`); on text it is the identity. -/
def pyStr (s : String) : String := s

/-- `safe_subn`: delegate to the regex engine's `subn` after coercing pattern
and replacement with `str`.  The engine itself (`re.subn`) is external to the
repository, so it is a parameter here. -/
def safe_subn (subn : String → String → String → String × Nat)
    (pattern repl target : String) : String × Nat :=
  subn (pyStr pattern) (pyStr repl) target

/-- `ODict.replace`: rebuild every entry by substituting in its key and its
value, accumulating the total number of substitutions. -/
def replace (subn : String → String → String → String × Nat)
    (pattern repl : String) : List (String × String) → List (String × String) × Nat
  | [] => ([], 0)
  | i :: rest =>
    let kc := safe_subn subn pattern repl i.1
    let vc := safe_subn subn pattern repl i.2
    let r := replace subn pattern repl rest
    ((kc.1, vc.1) :: r.1, kc.2 + vc.2 + r.2)

/-- If `p` is a prefix of `s`, return the remainder of `s`; otherwise `none`. -/
def dropMatch (p s : List Char) : Option (List Char) :=
  match p, s with
  | [], rest => some rest
  | _ :: _, [] => none
  | a :: ps, b :: bs => if a = b then dropMatch ps bs else none

/-- Fuel-driven global leftmost non-overlapping replacement of the literal
pattern `p` by `r`, counting replacements.  With fuel at least the length of
the subject and a non-empty pattern the fuel never runs out. -/
def subnFuel (p r : List Char) : Nat → List Char → List Char × Nat
  | 0, s => (s, 0)
  | _ + 1, [] => ([], 0)
  | fuel + 1, c :: cs =>
    match p, dropMatch p (c :: cs) with
    | _ :: _, some rest =>
      let t := subnFuel p r fuel rest
      (r ++ t.1, t.2 + 1)
    | _, _ =>
      let t := subnFuel p r fuel cs
      (c :: t.1, t.2)

/-- Modelled from the spec, §4.3: the regex engine used by `replace` is
Python's standard-library `re.subn`, which is outside the repository.  This
models its behaviour for non-empty patterns without metacharacters (literal
patterns): global, leftmost, non-overlapping replacement, returning the new
text and the number of substitutions made. -/
def re_subn_lit (pattern repl target : String) : String × Nat :=
  let t := subnFuel pattern.data repl.data target.data.length target.data
  (String.mk t.1, t.2)

/-! ### Heap model for aliasing claims

Python's `ODict` stores its entries as a list of mutable two-element lists.
To state alias-freedom of `get_state`/`from_state`/`copy` we model the entry
cells explicitly: a heap maps addresses to (key, value) cell contents, and a
dict object is the list of addresses of its entry cells. -/

/-- A heap of entry cells: contents of every address, plus the next fresh
address. -/
structure Heap where
  mem : Nat → String × String
  next : Nat

/-- Allocate a fresh cell holding `v`; returns the new heap and the fresh
address. -/
def halloc (h : Heap) (v : String × String) : Heap × Nat :=
  (⟨fun a => if a = h.next then v else h.mem a, h.next + 1⟩, h.next)

/-- Overwrite the cell at address `a` (an in-place mutation of one entry). -/
def hwrite (h : Heap) (a : Nat) (v : String × String) : Heap :=
  ⟨fun x => if x = a then v else h.mem x, h.next⟩

/-- Allocate a fresh cell for each value in turn, as building
`[list(i) for i in state]` or `copy.deepcopy(self.lst)` does. -/
def allocList (h : Heap) : List (String × String) → Heap × List Nat
  | [] => (h, [])
  | v :: rest =>
    let ha := halloc h v
    let r := allocList ha.1 rest
    (r.1, ha.2 :: r.2)

/-- The entry sequence a dict object currently denotes: the contents of its
cells, in order. -/
def readDict (h : Heap) (d : List Nat) : List (String × String) :=
  d.map h.mem

/-- A well-formed dict only points at allocated cells. -/
def wfDict (h : Heap) (d : List Nat) : Prop :=
  ∀ a ∈ d, a < h.next

/-- `ODict.get_state`: a pure, tuple-valued snapshot of the entries in order
(`[tuple(i) for i in self.lst]`). -/
def get_state (h : Heap) (d : List Nat) : List (String × String) :=
  readDict h d

/-- `ODict.from_state`: build a fresh object from a snapshot, allocating a new
mutable cell per entry (`klass([list(i) for i in state])`). -/
def from_state (h : Heap) (st : List (String × String)) : Heap × List Nat :=
  allocList h st

/-- `ODict.copy`: deep-copy the entry list (`copy.deepcopy(self.lst)`) into
fresh cells and wrap them in a new object. -/
def copy (h : Heap) (d : List Nat) : Heap × List Nat :=
  allocList h (get_state h d)

/-! ### Helper lemmas -/

theorem contains_eq_true_iff (kconv : String → String) (k : String)
    (lst : List (String × String)) :
    contains kconv k lst = true ↔ ∃ i ∈ lst, kconv i.1 = kconv k := by
  induction lst with
  | nil => simp [contains]
  | cons i rest ih =>
    by_cases hk : kconv i.1 = kconv k
    · simp [contains, hk]
    · simp [contains, hk, ih]

theorem getitem_eq_filter (kconv : String → String) (k : String)
    (lst : List (String × String)) :
    getitem kconv k lst =
      (lst.filter fun i => decide (kconv i.1 = kconv k)).map Prod.snd := by
  induction lst with
  | nil => simp [getitem]
  | cons i rest ih =>
    by_cases hk : kconv i.1 = kconv k
    · simp [getitem, List.filter_cons, hk, ih]
    · simp [getitem, List.filter_cons, hk, ih]

theorem joinSep_append_nil (sep : List Nat) (xs : List (List Nat)) (h : xs ≠ []) :
    joinSep sep (xs ++ [[]]) = joinSep sep xs ++ sep := by
  induction xs with
  | nil => exact absurd rfl h
  | cons x xs ih =>
    cases xs with
    | nil => simp [joinSep]
    | cons y ys =>
      have := ih (List.cons_ne_nil y ys)
      simp only [List.cons_append] at this ⊢
      simp [joinSep, this, List.append_assoc]

theorem replace_eq (subn : String → String → String → String × Nat)
    (pattern repl : String) (lst : List (String × String)) :
    replace subn pattern repl lst =
      (lst.map fun i =>
        ((safe_subn subn pattern repl i.1).1, (safe_subn subn pattern repl i.2).1),
       (lst.map fun i =>
        (safe_subn subn pattern repl i.1).2 + (safe_subn subn pattern repl i.2).2).sum) := by
  induction lst with
  | nil => simp [replace]
  | cons i rest ih => simp [replace, ih]

/-! ### Claim theorems -/

/-- Claim C9: on a map with zero entries, `format` returns the empty byte
string, which in particular contains no CR and no LF byte. -/
theorem format_empty_eq_nil :
    format [] = [] ∧ (13 : Nat) ∉ format [] ∧ (10 : Nat) ∉ format [] := by
  decide

/-- Claim C10: `set_values` with an empty value sequence leaves the map in the
same state as `delete`: every matching entry is removed and the remaining
entries keep their relative order. -/
theorem setitem_nil_eq_delitem (kconv : String → String) (k : String)
    (lst : List (String × String)) :
    setitem kconv k [] lst = delitem kconv k lst := by
  have h : ∀ l, setitem_loop kconv (kconv k) k l [] = (filter_lst kconv k l, []) := by
    intro l
    induction l with
    | nil => simp [setitem_loop, filter_lst]
    | cons i rest ih =>
      by_cases hk : kconv i.1 = kconv k
      · simp [setitem_loop, filter_lst, hk, ih]
      · simp [setitem_loop, filter_lst, hk, ih]
  simp [setitem, delitem, h]

/-- Claim C7: `get_all` returns exactly the values of the entries whose
normalized key equals the normalized query key, in original order, the empty
sequence when no entry matches; and `contains` is true iff at least one
entry's normalized key matches. -/
theorem getitem_contains_spec (kconv : String → String) (k : String)
    (lst : List (String × String)) :
    getitem kconv k lst =
      (lst.filter fun i => decide (kconv i.1 = kconv k)).map Prod.snd
    ∧ ((∀ i ∈ lst, kconv i.1 ≠ kconv k) → getitem kconv k lst = [])
    ∧ (contains kconv k lst = true ↔ ∃ i ∈ lst, kconv i.1 = kconv k) := by
  refine ⟨getitem_eq_filter kconv k lst, ?_, contains_eq_true_iff kconv k lst⟩
  intro h
  rw [getitem_eq_filter]
  have : lst.filter (fun i => decide (kconv i.1 = kconv k)) = [] := by
    simp only [List.filter_eq_nil_iff, decide_eq_true_eq]
    exact h
  simp [this]

theorem getitem_contains_spec_witness :
    getitem kconv_id "a" [("b", "1")] = [] ∧
      (contains kconv_id "a" [("b", "1")] = true ↔
        ∃ i ∈ [("b", "1")], kconv_id i.1 = kconv_id "a") :=
  ⟨(getitem_contains_spec kconv_id "a" [("b", "1")]).2.1 (by decide),
   (getitem_contains_spec kconv_id "a" [("b", "1")]).2.2⟩

/-- Claim C6: the caseless variant compares keys after lower-casing both sides
while stored key casing is preserved: after `add "HOST" "x"` on an empty map,
`contains "Host"` holds, `get_all "host"` returns `["x"]`, and the stored
entry still carries the key `"HOST"`. -/
theorem caseless_lookup_spec :
    contains kconv_caseless "Host" (add [] "HOST" "x") = true
    ∧ getitem kconv_caseless "host" (add [] "HOST" "x") = ["x"]
    ∧ add [] "HOST" "x" = [("HOST", "x")]
    ∧ (∀ (k : String) (lst : List (String × String)),
        contains kconv_caseless k lst = true ↔
          ∃ i ∈ lst, kconv_caseless i.1 = kconv_caseless k) :=
  ⟨by decide, by decide, rfl, fun k lst => contains_eq_true_iff kconv_caseless k lst⟩

/-- Claim C2: `set_values` fails with an invalid-argument error iff the value
argument is a scalar text value rather than a sequence, and on this failure
the entry sequence is unchanged. -/
theorem setitem_scalar_error (kconv : String → String) (k : String)
    (arg : ValueArg) (lst : List (String × String)) :
    ((setitem_run kconv k arg lst).1 ≠ none ↔ ∃ s, arg = ValueArg.scalar s)
    ∧ (∀ s, arg = ValueArg.scalar s → (setitem_run kconv k arg lst).2 = lst) := by
  cases arg <;> simp [setitem_run]

theorem setitem_scalar_error_witness :
    ((setitem_run kconv_id "Host" (ValueArg.scalar "example.com") [("A", "b")]).1 ≠ none)
    ∧ (setitem_run kconv_id "Host" (ValueArg.scalar "example.com") [("A", "b")]).2
        = [("A", "b")] :=
  ⟨(setitem_scalar_error kconv_id "Host" (ValueArg.scalar "example.com")
      [("A", "b")]).1.mpr ⟨"example.com", rfl⟩,
   (setitem_scalar_error kconv_id "Host" (ValueArg.scalar "example.com")
      [("A", "b")]).2 "example.com" rfl⟩

/-- Claim C5: `replace` substitutes independently in every entry's key and
value, returns the total number of substitutions over all keys and values,
and keeps the number and order of entries unchanged; in particular replacing
`"a"` by `"b"` on `[("a","a")]` returns 2 and yields `[("b","b")]`. -/
theorem replace_spec (subn : String → String → String → String × Nat)
    (pattern repl : String) (lst : List (String × String)) :
    (replace subn pattern repl lst).1 =
      (lst.map fun i =>
        ((safe_subn subn pattern repl i.1).1, (safe_subn subn pattern repl i.2).1))
    ∧ (replace subn pattern repl lst).1.length = lst.length
    ∧ (replace subn pattern repl lst).2 =
      (lst.map fun i =>
        (safe_subn subn pattern repl i.1).2 + (safe_subn subn pattern repl i.2).2).sum
    ∧ replace re_subn_lit "a" "b" [("a", "a")] = ([("b", "b")], 2) := by
  refine ⟨?_, ?_, ?_, by decide⟩
  · rw [replace_eq]
  · rw [replace_eq]; simp
  · rw [replace_eq]

/-- Claim C3: `format` renders every entry as `key + ": " + value` in UTF-8
bytes, joins the lines with CRLF and appends one trailing empty segment, so a
non-empty map's output ends with a CRLF after its last header line; the map
`[("Content-Length","5"),("Host","example.com")]` formats to the bytes of
`"Content-Length: 5\r\nHost: example.com\r\n"`. -/
theorem format_spec :
    (∀ lst : List (String × String), lst ≠ [] →
      format lst =
        joinSep [13, 10]
          (lst.map fun i => str_to_bytes i.1 ++ [58, 32] ++ str_to_bytes i.2)
          ++ [13, 10])
    ∧ format [("Content-Length", "5"), ("Host", "example.com")] =
        [67, 111, 110, 116, 101, 110, 116, 45, 76, 101, 110, 103, 116, 104, 58, 32, 53,
         13, 10, 72, 111, 115, 116, 58, 32, 101, 120, 97, 109, 112, 108, 101, 46, 99,
         111, 109, 13, 10] := by
  constructor
  · intro lst h
    have hm : lst.map (fun i => str_to_bytes i.1 ++ [58, 32] ++ str_to_bytes i.2) ≠ [] := by
      simpa using h
    exact joinSep_append_nil [13, 10] _ hm
  · decide

theorem format_spec_witness :
    format [("Host", "x")] =
      joinSep [13, 10]
        ([("Host", "x")].map fun i => str_to_bytes i.1 ++ [58, 32] ++ str_to_bytes i.2)
        ++ [13, 10] :=
  format_spec.1 [("Host", "x")] (by decide)

/-! ### The `set_values` walk against its specification -/

theorem setitem_loop_eq_specWalk (kconv : String → String) (k : String) (vs0 : List String)
    (lst : List (String × String)) :
    ∀ c : Nat,
      setitem_loop kconv (kconv k) k lst (vs0.drop c) =
        (specWalk kconv k vs0 lst c,
         vs0.drop (c + min (vs0.length - c) (numMatches kconv k lst))) := by
  induction lst with
  | nil =>
    intro c
    simp [setitem_loop, specWalk, numMatches]
  | cons i rest ih =>
    intro c
    by_cases hk : kconv i.1 = kconv k
    · rcases hd : vs0.drop c with _ | ⟨v, tl⟩
      · have hle : vs0.length ≤ c := List.drop_eq_nil_iff.mp hd
        have hget : vs0[c]? = none := List.getElem?_eq_none hle
        have h1 : vs0.drop (c + 1) = [] := List.drop_eq_nil_of_le (by omega)
        have hrec := ih (c + 1)
        rw [h1] at hrec
        simp only [setitem_loop, specWalk, numMatches, hk, hget, if_true, hrec]
        rw [List.drop_eq_nil_of_le (by omega), List.drop_eq_nil_of_le (by omega)]
      · have hc : c < vs0.length := by
          by_contra hle
          rw [List.drop_eq_nil_of_le (by omega)] at hd
          simp at hd
        have hget : vs0[c]? = some v := by
          have h0 : (vs0.drop c)[0]? = some v := by rw [hd]; simp
          rw [List.getElem?_drop] at h0
          simpa using h0
        have htl : vs0.drop (c + 1) = tl := by
          rw [← List.tail_drop, hd]
          simp
        have hrec := ih (c + 1)
        rw [htl] at hrec
        simp only [setitem_loop, specWalk, numMatches, hk, hget, if_true, hrec]
        have harith : c + 1 + min (vs0.length - (c + 1)) (numMatches kconv k rest) =
            c + min (vs0.length - c) (numMatches kconv k rest + 1) := by omega
        rw [harith]
    · have hrec := ih c
      simp [setitem_loop, specWalk, numMatches, hk, hrec]

/-- Claim C1: `set_values` with a sequence of values walks the existing
entries in order, replacing each matching entry in place by `(key, next
unconsumed value)` — the stored key becoming the caller-supplied key — while
values remain, dropping further matching entries once the values are
exhausted, passing non-matching entries through at their position, and
appending every remaining value at the end as a new `(key, value)` entry. -/
theorem setitem_eq_set_values_spec (kconv : String → String) (k : String)
    (vs : List String) (lst : List (String × String)) :
    setitem kconv k vs lst = set_values_spec kconv k vs lst := by
  have h := setitem_loop_eq_specWalk kconv k vs lst 0
  simp only [List.drop_zero, Nat.zero_add, Nat.sub_zero] at h
  simp [setitem, set_values_spec, h]

/-! ### Heap lemmas for the aliasing claims -/

theorem allocList_next (h : Heap) (vs : List (String × String)) :
    (allocList h vs).1.next = h.next + vs.length := by
  induction vs generalizing h with
  | nil => simp [allocList]
  | cons v rest ih =>
    simp only [allocList, ih, halloc, List.length_cons]
    omega

theorem allocList_addr_bounds (h : Heap) (vs : List (String × String)) :
    ∀ a ∈ (allocList h vs).2, h.next ≤ a ∧ a < h.next + vs.length := by
  induction vs generalizing h with
  | nil => simp [allocList]
  | cons v rest ih =>
    intro a ha
    simp only [allocList, List.mem_cons] at ha
    rcases ha with h1 | h1
    · subst h1
      simp only [halloc, List.length_cons]
      omega
    · have := ih (halloc h v).1 a h1
      simp only [halloc, List.length_cons] at this ⊢
      omega

theorem allocList_preserve (h : Heap) (vs : List (String × String)) (a : Nat)
    (ha : a < h.next) : (allocList h vs).1.mem a = h.mem a := by
  induction vs generalizing h with
  | nil => simp [allocList]
  | cons v rest ih =>
    have h1 : a < (halloc h v).1.next := by simp only [halloc]; omega
    have h2 : (allocList h (v :: rest)).1 = (allocList (halloc h v).1 rest).1 := by
      simp [allocList]
    rw [h2, ih _ h1]
    simp only [halloc]
    rw [if_neg (by omega)]

theorem allocList_read (h : Heap) (vs : List (String × String)) :
    readDict (allocList h vs).1 (allocList h vs).2 = vs := by
  induction vs generalizing h with
  | nil => simp [allocList, readDict]
  | cons v rest ih =>
    simp only [allocList, readDict, List.map_cons]
    have hmem : (allocList (halloc h v).1 rest).1.mem (halloc h v).2 = v := by
      rw [allocList_preserve _ _ _ (by simp [halloc])]
      simp [halloc]
    rw [hmem]
    have := ih (halloc h v).1
    simp only [readDict] at this
    rw [this]

theorem readDict_congr (h1 h2 : Heap) (d : List Nat)
    (he : ∀ a ∈ d, h1.mem a = h2.mem a) : readDict h1 d = readDict h2 d :=
  List.map_congr_left he

theorem readDict_hwrite (h : Heap) (a : Nat) (v : String × String) (d : List Nat)
    (ha : a ∉ d) : readDict (hwrite h a v) d = readDict h d := by
  apply List.map_congr_left
  intro x hx
  simp only [hwrite]
  rw [if_neg]
  rintro rfl
  exact ha hx

/-- Claim C4: `from_state (get_state m)` restores a map whose entry sequence
equals the original's (same keys, values, count and order), and the snapshot
round trip is alias-free: the restored object's cells are disjoint from the
original's, so overwriting any cell of the restored map leaves every entry of
the original unchanged, and vice versa. -/
theorem state_roundtrip_alias_free (h : Heap) (d : List Nat) (hwf : wfDict h d) :
    readDict (from_state h (get_state h d)).1 (from_state h (get_state h d)).2 =
      readDict h d
    ∧ readDict (from_state h (get_state h d)).1 d = readDict h d
    ∧ (∀ a ∈ (from_state h (get_state h d)).2, a ∉ d)
    ∧ (∀ a ∈ (from_state h (get_state h d)).2, ∀ v,
        readDict (hwrite (from_state h (get_state h d)).1 a v) d =
          readDict (from_state h (get_state h d)).1 d)
    ∧ (∀ a ∈ d, ∀ v,
        readDict (hwrite (from_state h (get_state h d)).1 a v)
            (from_state h (get_state h d)).2 =
          readDict (from_state h (get_state h d)).1 (from_state h (get_state h d)).2) := by
  have hfresh : ∀ a ∈ (from_state h (get_state h d)).2, h.next ≤ a :=
    fun a ha => (allocList_addr_bounds h _ a ha).1
  have hdisj : ∀ a ∈ (from_state h (get_state h d)).2, a ∉ d := by
    intro a ha hd
    exact absurd (hwf a hd) (not_lt.mpr (hfresh a ha))
  have hpres : readDict (from_state h (get_state h d)).1 d = readDict h d :=
    readDict_congr _ _ _ (fun a ha => allocList_preserve h _ a (hwf a ha))
  refine ⟨allocList_read h (get_state h d), hpres, hdisj, ?_, ?_⟩
  · intro a ha v
    exact readDict_hwrite _ a v d (hdisj a ha)
  · intro a ha v
    exact readDict_hwrite _ a v _ (fun hmem => hdisj a hmem ha)

theorem state_roundtrip_alias_free_witness :
    readDict (from_state (Heap.mk (fun _ => ("A", "1")) 2)
        (get_state (Heap.mk (fun _ => ("A", "1")) 2) [0, 1])).1
      (from_state (Heap.mk (fun _ => ("A", "1")) 2)
        (get_state (Heap.mk (fun _ => ("A", "1")) 2) [0, 1])).2 =
      readDict (Heap.mk (fun _ => ("A", "1")) 2) [0, 1] :=
  (state_roundtrip_alias_free (Heap.mk (fun _ => ("A", "1")) 2) [0, 1]
    (by simp only [wfDict]; decide)).1

/-- Claim C8: `copy` deep-copies the entry cells: the clone's entry sequence
equals the original's at the moment of copying, the clone's cells are disjoint
from the original's, and overwriting any cell of the clone leaves every entry
of the original unchanged, and vice versa. -/
theorem copy_deep_clone (h : Heap) (d : List Nat) (hwf : wfDict h d) :
    readDict (copy h d).1 (copy h d).2 = readDict h d
    ∧ readDict (copy h d).1 d = readDict h d
    ∧ (∀ a ∈ (copy h d).2, a ∉ d)
    ∧ (∀ a ∈ (copy h d).2, ∀ v,
        readDict (hwrite (copy h d).1 a v) d = readDict (copy h d).1 d)
    ∧ (∀ a ∈ d, ∀ v,
        readDict (hwrite (copy h d).1 a v) (copy h d).2 =
          readDict (copy h d).1 (copy h d).2) := by
  have hfresh : ∀ a ∈ (copy h d).2, h.next ≤ a :=
    fun a ha => (allocList_addr_bounds h _ a ha).1
  have hdisj : ∀ a ∈ (copy h d).2, a ∉ d := by
    intro a ha hd
    exact absurd (hwf a hd) (not_lt.mpr (hfresh a ha))
  have hpres : readDict (copy h d).1 d = readDict h d :=
    readDict_congr _ _ _ (fun a ha => allocList_preserve h _ a (hwf a ha))
  refine ⟨allocList_read h (get_state h d), hpres, hdisj, ?_, ?_⟩
  · intro a ha v
    exact readDict_hwrite _ a v d (hdisj a ha)
  · intro a ha v
    exact readDict_hwrite _ a v _ (fun hmem => hdisj a hmem ha)

theorem copy_deep_clone_witness :
    readDict (copy (Heap.mk (fun _ => ("k", "v")) 1) [0]).1
        (copy (Heap.mk (fun _ => ("k", "v")) 1) [0]).2 =
      readDict (Heap.mk (fun _ => ("k", "v")) 1) [0] :=
  (copy_deep_clone (Heap.mk (fun _ => ("k", "v")) 1) [0]
    (by simp only [wfDict]; decide)).1

end Netlib
